import Mathlib

set_option maxRecDepth 8192

/-! Verification of the tiff2pdf batch converter (`tiff2pdf.py`): a shallow
embedding of the signature validator `check_hex`, the single-file converter
`tiff_to_pdf` and the batch pipeline `main`, together with theorems about the
properties these components are expected to satisfy.

Files are modelled by their leading raw bytes together with the frame
sequence the image library decodes from them and the page sequence the PDF
merger reads from them; the filesystem is a partial map from path strings to
such files.  `Image.save` picks its output format from the target path's
extension.  Exceptions raised by the Python code are modelled with
`Except`. -/

abbrev Byte := Fin 256

/-- One file on disk, modelled by the three views the script takes of it: the
leading raw bytes (read by the signature check), the frame sequence the image
library decodes from it (`none` when `Image.open` cannot decode the file),
and the page sequence the PDF merger reads from it (`none` when
`PdfFileMerger` cannot parse it — a TIFF or junk file is not a readable
PDF). -/
structure FileData where
  bytes : List Byte
  frames : Option (List Nat)
  pdfPages : Option (List Nat)
deriving DecidableEq

abbrev Fs := String → Option FileData

def Fs.write (fs : Fs) (p : String) (d : FileData) : Fs :=
  fun q => if q = p then some d else fs q

def Fs.erase (fs : Fs) (p : String) : Fs :=
  fun q => if q = p then none else fs q

/-- The exceptions the script can raise. -/
inductive Err where
  | openFail (p : String)
  | notFound (p : String)
  | decodeFail (p : String)
  | saveFail (p : String)
  | mergeRead (p : String)
  | removeFail (p : String)
  | indexOut
deriving DecidableEq

/-! ## The signature validator `check_hex` -/

/-- Lowercase hexadecimal digit, as produced by `binascii.hexlify`. -/
def hexDigit (n : Nat) : Char :=
  if n < 10 then Char.ofNat (48 + n) else Char.ofNat (87 + n)

def hexlifyByte (b : Byte) : List Char :=
  [hexDigit (b.val / 16), hexDigit (b.val % 16)]

def hexlify (bs : List Byte) : List Char :=
  (bs.map hexlifyByte).flatten

def quoteChar : Char := Char.ofNat 39

/-- Python `str(binascii.hexlify(chunk))`: the characters
`b`, quote, hex digits, quote. -/
def pyBytesRepr (bs : List Byte) : List Char :=
  'b' :: quoteChar :: (hexlify bs ++ [quoteChar])

/-- The reading loop of `check_hex`: chunks of 32 bytes, at most `fuel` of
them, stopping early once the file is exhausted. -/
def readChunksFuel : Nat → List Byte → List (List Byte)
  | 0, _ => []
  | _ + 1, [] => []
  | n + 1, l => l.take 32 :: readChunksFuel n (l.drop 32)

/-- The string `byte_sig` of `check_hex`: characters `b`, quote, then the
lowercase hex of the byte-order-appropriate TIFF magic number. -/
def byte_sig (le : Bool) : List Char :=
  'b' :: quoteChar ::
    (if le then ['4', '9', '4', '9', '2', 'a', '0', '0']
     else ['4', 'd', '4', 'd', '0', '0', '2', 'a'])

/-- `hex_dump` accumulated by the loop of `check_hex` (at most 11 chunks). -/
def hex_dump (bs : List Byte) : List Char :=
  ((readChunksFuel 11 bs).map pyBytesRepr).flatten

/-- The comparison `hex_dump[:10] == byte_sig` performed by `check_hex`,
as a function of the file content. -/
def check_hex_content (le : Bool) (bs : List Byte) : Bool :=
  (hex_dump bs).take 10 == byte_sig le

/-- The TIFF magic number for the given byte order. -/
def sig_bytes (le : Bool) : List Byte :=
  if le then [0x49, 0x49, 0x2a, 0x00] else [0x4d, 0x4d, 0x00, 0x2a]

/-- `check_hex`: opens the file (the `open` call raises when the path cannot
be read) and compares the dump prefix with `byte_sig`. -/
def check_hex (fs : Fs) (le : Bool) (file_path : String) : Except Err Bool :=
  match fs file_path with
  | none => .error (Err.openFail file_path)
  | some d => .ok (check_hex_content le d.bytes)

/-! ### Reduction lemmas for the dump prefix -/

theorem hex_dump_take_nil : (hex_dump ([] : List Byte)).take 10 = [] := rfl

theorem hex_dump_take_one (a : Byte) :
    (hex_dump [a]).take 10 =
      ['b', quoteChar, hexDigit (a.val / 16), hexDigit (a.val % 16), quoteChar] := rfl

theorem hex_dump_take_two (a b : Byte) :
    (hex_dump [a, b]).take 10 =
      ['b', quoteChar, hexDigit (a.val / 16), hexDigit (a.val % 16),
       hexDigit (b.val / 16), hexDigit (b.val % 16), quoteChar] := rfl

theorem hex_dump_take_three (a b c : Byte) :
    (hex_dump [a, b, c]).take 10 =
      ['b', quoteChar, hexDigit (a.val / 16), hexDigit (a.val % 16),
       hexDigit (b.val / 16), hexDigit (b.val % 16),
       hexDigit (c.val / 16), hexDigit (c.val % 16), quoteChar] := rfl

theorem hex_dump_take_cons4 (b0 b1 b2 b3 : Byte) (rest : List Byte) :
    (hex_dump (b0 :: b1 :: b2 :: b3 :: rest)).take 10 =
      ['b', quoteChar, hexDigit (b0.val / 16), hexDigit (b0.val % 16),
       hexDigit (b1.val / 16), hexDigit (b1.val % 16),
       hexDigit (b2.val / 16), hexDigit (b2.val % 16),
       hexDigit (b3.val / 16), hexDigit (b3.val % 16)] := rfl

theorem hexPair_49 (b : Byte) :
    (hexDigit (b.val / 16) = '4' ∧ hexDigit (b.val % 16) = '9') ↔ b = 0x49 := by
  revert b; decide

theorem hexPair_4d (b : Byte) :
    (hexDigit (b.val / 16) = '4' ∧ hexDigit (b.val % 16) = 'd') ↔ b = 0x4d := by
  revert b; decide

theorem hexPair_2a (b : Byte) :
    (hexDigit (b.val / 16) = '2' ∧ hexDigit (b.val % 16) = 'a') ↔ b = 0x2a := by
  revert b; decide

theorem hexPair_00 (b : Byte) :
    (hexDigit (b.val / 16) = '0' ∧ hexDigit (b.val % 16) = '0') ↔ b = 0x00 := by
  revert b; decide

theorem check_hex_content_iff (le : Bool) (bs : List Byte) :
    check_hex_content le bs = true ↔ bs.take 4 = sig_bytes le := by
  unfold check_hex_content
  rw [beq_iff_eq]
  rcases bs with _ | ⟨b0, _ | ⟨b1, _ | ⟨b2, _ | ⟨b3, rest⟩⟩⟩⟩
  · rw [hex_dump_take_nil]; cases le <;> simp [byte_sig, sig_bytes]
  · rw [hex_dump_take_one]; cases le <;> simp [byte_sig, sig_bytes]
  · rw [hex_dump_take_two]; cases le <;> simp [byte_sig, sig_bytes]
  · rw [hex_dump_take_three]; cases le <;> simp [byte_sig, sig_bytes]
  · rw [hex_dump_take_cons4]
    have hTake : (b0 :: b1 :: b2 :: b3 :: rest).take 4 = [b0, b1, b2, b3] := rfl
    rw [hTake]
    cases le
    · have hsig : byte_sig false =
          ['b', quoteChar, '4', 'd', '4', 'd', '0', '0', '2', 'a'] := rfl
      have hbytes : sig_bytes false = [0x4d, 0x4d, 0x00, 0x2a] := rfl
      rw [hsig, hbytes]
      simp only [List.cons.injEq, and_true, true_and]
      constructor
      · rintro ⟨h1, h2, h3, h4, h5, h6, h7, h8⟩
        exact ⟨(hexPair_4d b0).mp ⟨h1, h2⟩, (hexPair_4d b1).mp ⟨h3, h4⟩,
               (hexPair_00 b2).mp ⟨h5, h6⟩, (hexPair_2a b3).mp ⟨h7, h8⟩⟩
      · rintro ⟨g0, g1, g2, g3⟩
        have p0 := (hexPair_4d b0).mpr g0
        have p1 := (hexPair_4d b1).mpr g1
        have p2 := (hexPair_00 b2).mpr g2
        have p3 := (hexPair_2a b3).mpr g3
        exact ⟨p0.1, p0.2, p1.1, p1.2, p2.1, p2.2, p3.1, p3.2⟩
    · have hsig : byte_sig true =
          ['b', quoteChar, '4', '9', '4', '9', '2', 'a', '0', '0'] := rfl
      have hbytes : sig_bytes true = [0x49, 0x49, 0x2a, 0x00] := rfl
      rw [hsig, hbytes]
      simp only [List.cons.injEq, and_true, true_and]
      constructor
      · rintro ⟨h1, h2, h3, h4, h5, h6, h7, h8⟩
        exact ⟨(hexPair_49 b0).mp ⟨h1, h2⟩, (hexPair_49 b1).mp ⟨h3, h4⟩,
               (hexPair_2a b2).mp ⟨h5, h6⟩, (hexPair_00 b3).mp ⟨h7, h8⟩⟩
      · rintro ⟨g0, g1, g2, g3⟩
        have p0 := (hexPair_49 b0).mpr g0
        have p1 := (hexPair_49 b1).mpr g1
        have p2 := (hexPair_2a b2).mpr g2
        have p3 := (hexPair_00 b3).mpr g3
        exact ⟨p0.1, p0.2, p1.1, p1.2, p2.1, p2.2, p3.1, p3.2⟩

/-! ## Path derivation of `tiff_to_pdf` -/

/-- Python substring containment (`pat in s`): some suffix of `s` starts
with `pat`. -/
def occursIn (pat : List Char) : List Char → Bool
  | [] => pat.isPrefixOf []
  | c :: cs => pat.isPrefixOf (c :: cs) || occursIn pat cs

/-- Python `str.replace`: replace every occurrence of `pat`, scanning left to
right without overlap.  The counter records characters of a matched pattern
still to be skipped. -/
def replAux (pat rep : List Char) : Nat → List Char → List Char
  | 0, [] => []
  | 0, c :: cs =>
    if pat.isPrefixOf (c :: cs) then rep ++ replAux pat rep (pat.length - 1) cs
    else c :: replAux pat rep 0 cs
  | _ + 1, [] => []
  | k + 1, _ :: cs => replAux pat rep k cs

def replaceAll (pat rep s : List Char) : List Char :=
  replAux pat rep 0 s

def dottiff : List Char := ['.', 't', 'i', 'f', 'f']
def dottif : List Char := ['.', 't', 'i', 'f']
def dotpdf : List Char := ['.', 'p', 'd', 'f']

/-- The `pdf_path` derivation at the top of `tiff_to_pdf`: if `".tiff"` occurs
anywhere in the path replace every occurrence of it with `".pdf"`, otherwise
replace every occurrence of `".tif"` with `".pdf"`. -/
def pdfPathOf (p : String) : String :=
  if occursIn dottiff p.data then ⟨replaceAll dottiff dotpdf p.data⟩
  else ⟨replaceAll dottif dotpdf p.data⟩

/-! ## The save step and the converter `tiff_to_pdf` -/

/-- The leading bytes of a little-endian TIFF, as PIL writes them. -/
def tiffLE : List Byte := [0x49, 0x49, 0x2a, 0x00]

/-- The leading bytes of a PDF document. -/
def pdfMagic : List Byte := [0x25, 0x50, 0x44, 0x46]

/-- The target extensions `Image.save` can handle here: PIL picks the output
format from the target path's extension.  The path derivation of this program
only ever produces targets ending in `.pdf` or `.tif`/`.tiff` from its
accepted inputs; any other extension reachable on raw converter inputs (such
as `.txt`) is unregistered and makes the save raise `ValueError`. -/
def saveOk (p : String) : Bool :=
  dotpdf.isSuffixOf p.data || dottiff.isSuffixOf p.data || dottif.isSuffixOf p.data

/-- What `Image.save` writes at a target path: a PDF document holding the
pages when the target ends in `.pdf`, otherwise (for `.tif`/`.tiff` targets)
a little-endian TIFF holding them as frames — with the `49 49 2A 00`
signature, and not parseable as a PDF. -/
def savedData (p : String) (pages : List Nat) : FileData :=
  if dotpdf.isSuffixOf p.data then ⟨pdfMagic, none, some pages⟩
  else ⟨tiffLE, some pages, none⟩

/-- `Image.save(pdf_path)`: raises `ValueError` on an unregistered target
extension, otherwise writes the format chosen from the extension. -/
def pilSave (fs : Fs) (p : String) (pages : List Nat) : Except Err Fs :=
  if saveOk p then .ok (fs.write p (savedData p pages))
  else .error (Err.saveFail p)

/-- `tiff_to_pdf`: derive `pdf_path`, raise when the source does not exist,
decode the frame sequence, convert each frame to RGB, and save the pages to
`pdf_path` (single-page save, or first page plus appended remainder; either
way the extension-chosen format holds all pages in order).  Returns the
updated filesystem and the returned `pdf_path`. -/
def tiff_to_pdf (rgb : Nat → Nat) (fs : Fs) (tiff_path : String) :
    Except Err (Fs × String) :=
  let pdf_path := pdfPathOf tiff_path
  match fs tiff_path with
  | none => .error (Err.notFound tiff_path)
  | some d =>
    match d.frames with
    | none => .error (Err.decodeFail tiff_path)
    | some frames =>
      match frames.map rgb with
      | [] => .error Err.indexOut
      | i0 :: restPages =>
        let saved := if restPages = [] then [i0] else i0 :: restPages
        match pilSave fs pdf_path saved with
        | .error e => .error e
        | .ok fs2 => .ok (fs2, pdf_path)

/-! ## The batch pipeline `main` -/

def inDir : String := "pdf/input"
def outDir : String := "pdf/output"

/-- `os.path.join` for a directory and an entry name. -/
def joinP (d f : String) : String := d ++ "/" ++ f

/-- `os.listdir`: the entries of `pdf/input`, in a fixed enumeration order
`allNames`, restricted to those present in the filesystem. -/
def listdir (allNames : List String) (fs : Fs) : List String :=
  allNames.filter (fun n => (fs (joinP inDir n)).isSome)

/-- `file.endswith(".tiff") or file.endswith(".tif")`. -/
def hasTiffExt (f : String) : Bool :=
  dottiff.isSuffixOf f.data || dottif.isSuffixOf f.data

/-- The conversion loop of `main`: for each directory entry with a `.tif` or
`.tiff` extension, run `check_hex` (which may raise), then test manifest
membership, then convert, accumulating the returned middle-file paths. -/
def convertLoop (rgb : Nat → Nat) (le : Bool) (pat_files : List String) :
    List String → Fs → Except Err (Fs × List String)
  | [], fs => .ok (fs, [])
  | f :: rest, fs =>
    if hasTiffExt f then
      match check_hex fs le (joinP inDir f) with
      | .error e => .error e
      | .ok sig =>
        if sig && pat_files.contains f then
          match tiff_to_pdf rgb fs (joinP inDir f) with
          | .error e => .error e
          | .ok (fs2, mid) =>
            match convertLoop rgb le pat_files rest fs2 with
            | .error e => .error e
            | .ok (fsN, mids) => .ok (fsN, mid :: mids)
        else convertLoop rgb le pat_files rest fs
    else convertLoop rgb le pat_files rest fs

/-- The merge loop: `merger.append(pdf)` for each middle file, reading each
PDF from the filesystem as it stands after all conversions. -/
def mergePages (fs : Fs) : List String → Except Err (List Nat)
  | [] => .ok []
  | p :: rest =>
    match fs p with
    | none => .error (Err.mergeRead p)
    | some d =>
      match d.pdfPages with
      | none => .error (Err.mergeRead p)
      | some pages => (mergePages fs rest).map (fun t => pages ++ t)

/-- The deletion loops: `os.remove` raises when the path is absent. -/
def removeAll (fs : Fs) : List String → Except Err Fs
  | [] => .ok fs
  | p :: rest =>
    match fs p with
    | none => .error (Err.removeFail p)
    | some _ => removeAll (fs.erase p) rest

/-- ASCII model of Python `str.lower`. -/
def lowerStr (s : String) : String := ⟨s.data.map Char.toLower⟩

def RunResult := Fs × List Nat × String × List String

def RunResult.fs (r : RunResult) : Fs := r.1
def RunResult.merged (r : RunResult) : List Nat := r.2.1
def RunResult.outName (r : RunResult) : String := r.2.2.1
def RunResult.mids (r : RunResult) : List String := r.2.2.2

/-- `main`: parse `sys.argv` (the whole vector is `pat_files`, `sys.argv[1]`
the job id), convert the filtered listing of `pdf/input`, merge the middle
files, write the dated output into `pdf/output`, delete the middle files,
re-list the input directory and delete every listed file in `pat_files`. -/
def runBatch (rgb : Nat → Nat) (le : Bool) (ts : String)
    (argv allNames : List String) (fs0 : Fs) : Except Err RunResult :=
  match argv with
  | _a0 :: a1 :: _rest =>
    let pat_files := argv
    let pat_id : String := ⟨replaceAll [','] ['_'] (lowerStr a1).data⟩
    match convertLoop rgb le pat_files (listdir allNames fs0) fs0 with
    | .error e => .error e
    | .ok (fs1, mids) =>
      match mergePages fs1 mids with
      | .error e => .error e
      | .ok pages =>
        let outfile_name := pat_id ++ "_merged_" ++ ts ++ ".pdf"
        let fs2 := fs1.write (joinP outDir outfile_name) ⟨pdfMagic, none, some pages⟩
        match removeAll fs2 mids with
        | .error e => .error e
        | .ok fs3 =>
          match removeAll fs3
              (((listdir allNames fs3).filter
                  (fun f => pat_files.contains f)).map (joinP inDir)) with
          | .error e => .error e
          | .ok fs4 => .ok (fs4, pages, outfile_name, mids)
  | _ => .error Err.indexOut

/-! ## Specification-side observers for the filter -/

/-- The signature check as a pure reading of a filesystem state. -/
def sigAt (le : Bool) (fs : Fs) (p : String) : Bool :=
  match fs p with
  | some d => check_hex_content le d.bytes
  | none => false

/-- The filter condition of `main`, read over a fixed filesystem state:
extension, signature, manifest membership, in the order the code tests them. -/
def staticCond (le : Bool) (pat_files : List String) (fs0 : Fs) (f : String) : Bool :=
  hasTiffExt f && sigAt le fs0 (joinP inDir f) && pat_files.contains f

/-- The middle-file path derived for a directory entry. -/
def midOf (f : String) : String := pdfPathOf (joinP inDir f)

def decodedAt (fs : Fs) (p : String) : Option (List Nat) :=
  (fs p).bind FileData.frames

/-- The RGB-normalized page sequence of a directory entry in state `fs0`. -/
def pagesOf (rgb : Nat → Nat) (fs0 : Fs) (f : String) : List Nat :=
  ((decodedAt fs0 (joinP inDir f)).getD []).map rgb

deriving instance DecidableEq for Except

/-! ## Basic filesystem lemmas -/

theorem Fs.write_same (fs : Fs) (p : String) (d : FileData) :
    fs.write p d p = some d := by
  simp [Fs.write]

theorem Fs.write_other (fs : Fs) (p : String) (d : FileData) (q : String)
    (h : q ≠ p) : fs.write p d q = fs q := by
  simp [Fs.write, h]

theorem Fs.erase_other (fs : Fs) (p q : String) (h : q ≠ p) :
    fs.erase p q = fs q := by
  simp [Fs.erase, h]

/-! ## Characterizations of the converter and the loops -/

theorem tiff_to_pdf_eq (rgb : Nat → Nat) (fs : Fs) (p : String) (d : FileData)
    (ps : List Nat) (hfp : fs p = some d) (hdec : d.frames = some ps)
    (hne : ps ≠ []) (hsv : saveOk (pdfPathOf p) = true) :
    tiff_to_pdf rgb fs p =
      .ok (fs.write (pdfPathOf p) (savedData (pdfPathOf p) (ps.map rgb)),
        pdfPathOf p) := by
  cases hm : ps.map rgb with
  | nil => exact absurd (List.map_eq_nil_iff.mp hm) hne
  | cons i0 rp =>
    have hsaved : (if rp = [] then [i0] else i0 :: rp) = i0 :: rp := by
      cases rp <;> simp
    simp only [tiff_to_pdf, hfp, hdec, hm, hsaved, pilSave, hsv, if_true]

theorem tiff_to_pdf_ok (rgb : Nat → Nat) (fs : Fs) (p : String) (fs2 : Fs)
    (mid : String) (h : tiff_to_pdf rgb fs p = .ok (fs2, mid)) :
    mid = pdfPathOf p ∧ ∀ q, q ≠ pdfPathOf p → fs2 q = fs q := by
  cases hfp : fs p with
  | none => simp [tiff_to_pdf, hfp] at h
  | some d =>
    cases hdec : d.frames with
    | none => simp [tiff_to_pdf, hfp, hdec] at h
    | some frames =>
      cases hm : frames.map rgb with
      | nil => simp [tiff_to_pdf, hfp, hdec, hm] at h
      | cons i0 rp =>
        by_cases hsv : saveOk (pdfPathOf p) = true
        · simp only [tiff_to_pdf, hfp, hdec, hm, pilSave, hsv, if_true,
            Except.ok.injEq, Prod.mk.injEq] at h
          obtain ⟨hfs2, hmid⟩ := h
          refine ⟨hmid.symm, fun q hq => ?_⟩
          rw [← hfs2, Fs.write_other _ _ _ _ hq]
        · simp [tiff_to_pdf, hfp, hdec, hm, pilSave, hsv] at h

theorem convertLoop_frame (rgb : Nat → Nat) (le : Bool) (pf : List String) :
    ∀ (listing : List String) (fs fsN : Fs) (mids : List String),
      convertLoop rgb le pf listing fs = .ok (fsN, mids) →
      ∀ q, ¬ q ∈ mids → fsN q = fs q := by
  intro listing
  induction listing with
  | nil =>
    intro fs fsN mids h q _
    simp only [convertLoop, Except.ok.injEq, Prod.mk.injEq] at h
    rw [← h.1]
  | cons f rest ih =>
    intro fs fsN mids h q hq
    by_cases hext : hasTiffExt f
    · cases hch : check_hex fs le (joinP inDir f) with
      | error e => simp [convertLoop, hext, hch] at h
      | ok sig =>
        by_cases hc : sig = true ∧ f ∈ pf
        · cases ht : tiff_to_pdf rgb fs (joinP inDir f) with
          | error e => simp [convertLoop, hext, hch, hc.1, hc.2, ht] at h
          | ok r =>
            obtain ⟨fs2, mid⟩ := r
            cases hcl : convertLoop rgb le pf rest fs2 with
            | error e => simp [convertLoop, hext, hch, hc.1, hc.2, ht, hcl] at h
            | ok r2 =>
              obtain ⟨fsN2, mids2⟩ := r2
              simp [convertLoop, hext, hch, hc.1, hc.2, ht, hcl,
                Except.ok.injEq, Prod.mk.injEq] at h
              obtain ⟨hfs, hmids⟩ := h
              rw [← hmids] at hq
              simp only [List.mem_cons, not_or] at hq
              obtain ⟨hmid, ht2⟩ := tiff_to_pdf_ok rgb fs _ fs2 mid ht
              rw [← hfs, ih fs2 fsN2 mids2 hcl q hq.2, ht2 q (hmid ▸ hq.1)]
        · simp [convertLoop, hext, hch, hc] at h
          exact ih fs fsN mids h q hq
    · simp only [convertLoop, hext, if_false] at h
      exact ih fs fsN mids h q hq

theorem removeAll_spec :
    ∀ (ps : List String) (fs fsN : Fs), removeAll fs ps = .ok fsN →
      (∀ q, q ∈ ps → fsN q = none) ∧ (∀ q, ¬ q ∈ ps → fsN q = fs q) := by
  intro ps
  induction ps with
  | nil =>
    intro fs fsN h
    simp only [removeAll, Except.ok.injEq] at h
    exact ⟨fun q hq => absurd hq (List.not_mem_nil q), fun q _ => by rw [← h]⟩
  | cons p rest ih =>
    intro fs fsN h
    simp only [removeAll] at h
    cases hfp : fs p with
    | none => rw [hfp] at h; exact absurd h (by simp)
    | some d =>
      rw [hfp] at h
      obtain ⟨h1, h2⟩ := ih (fs.erase p) fsN h
      constructor
      · intro q hq
        rcases List.mem_cons.mp hq with hq | hq
        · subst hq
          by_cases hm : q ∈ rest
          · exact h1 q hm
          · rw [h2 q hm]; simp [Fs.erase]
        · exact h1 q hq
      · intro q hq
        simp only [List.mem_cons, not_or] at hq
        rw [h2 q hq.2, Fs.erase_other fs p q hq.1]

theorem removeAll_none_or (ps : List String) (fs fsN : Fs)
    (h : removeAll fs ps = .ok fsN) (q : String) :
    fsN q = none ∨ fsN q = fs q := by
  obtain ⟨h1, h2⟩ := removeAll_spec ps fs fsN h
  by_cases hm : q ∈ ps
  · exact Or.inl (h1 q hm)
  · exact Or.inr (h2 q hm)

/-! ## Replacement lemmas -/

theorem replAux_id_of_not_occurs (pat rep : List Char) :
    ∀ s : List Char, occursIn pat s = false → replAux pat rep 0 s = s := by
  intro s
  induction s with
  | nil => intro _; rfl
  | cons c cs ih =>
    intro h
    simp only [occursIn, Bool.or_eq_false_iff] at h
    simp only [replAux, h.1, if_false, Bool.false_eq_true]
    rw [ih h.2]

theorem occursIn_mono (s : List Char) (h : occursIn dottiff s = true) :
    occursIn dottif s = true := by
  induction s with
  | nil => simp [occursIn, dottiff] at h
  | cons c cs ih =>
    simp only [occursIn, Bool.or_eq_true] at h ⊢
    rcases h with h | h
    · left
      rw [List.isPrefixOf_iff_prefix] at h ⊢
      exact List.IsPrefix.trans (by decide) h
    · right; exact ih h

theorem pdfPathOf_eq_self (p : String) (h : occursIn dottif p.data = false) :
    pdfPathOf p = p := by
  have h5 : occursIn dottiff p.data = false := by
    cases h5 : occursIn dottiff p.data with
    | false => rfl
    | true => rw [occursIn_mono p.data h5] at h; exact absurd h (by simp)
  unfold pdfPathOf replaceAll
  rw [h5, if_neg (by simp)]
  rw [replAux_id_of_not_occurs dottif dotpdf p.data h]

/-! ## The derived path of a `.tif`/`.tiff` source is always saveable -/

theorem isSuffixOf_cons_of (p : List Char) (c : Char) (cs : List Char)
    (h : p.isSuffixOf cs = true) : p.isSuffixOf (c :: cs) = true := by
  rw [List.isSuffixOf_iff_suffix] at h ⊢
  exact h.trans (List.suffix_cons c cs)

theorem isSuffixOf_append_of (p x s : List Char)
    (h : p.isSuffixOf s = true) : p.isSuffixOf (x ++ s) = true := by
  rw [List.isSuffixOf_iff_suffix] at h ⊢
  exact h.trans (List.suffix_append x s)

theorem charTdot : (('t' == '.') : Bool) = false := by decide
theorem charIdot : (('i' == '.') : Bool) = false := by decide
theorem charFdot : (('f' == '.') : Bool) = false := by decide

theorem replAux_shift (pat rep : List Char) :
    ∀ (k : Nat) (l : List Char),
      replAux pat rep k l = replAux pat rep 0 (l.drop k) := by
  intro k
  induction k with
  | zero => intro l; rw [List.drop_zero]
  | succ k ih =>
    intro l
    cases l with
    | nil => rfl
    | cons c cs => exact ih cs

/-- Replacing every `".tiff"` in a string that ends with `".tiff"` yields a
string ending with `".pdf"`: the pattern cannot overlap itself, so the
trailing occurrence is always replaced whole. -/
theorem repl_end_tiff_aux :
    ∀ (n : Nat) (u : List Char), u.length ≤ n →
      dotpdf.isSuffixOf (replaceAll dottiff dotpdf (u ++ dottiff)) = true := by
  intro n
  induction n with
  | zero =>
    intro u hu
    have hnil : u = [] := List.length_eq_zero.mp (Nat.le_zero.mp hu)
    subst hnil; decide
  | succ n ih =>
    intro u hu
    match u with
    | [] => decide
    | c :: u2 =>
      rw [List.cons_append]
      by_cases hpre : dottiff.isPrefixOf (c :: (u2 ++ dottiff)) = true
      · have hlen : 4 ≤ u2.length := by
          by_contra hlt
          push_neg at hlt
          rcases u2 with _ | ⟨a1, _ | ⟨a2, _ | ⟨a3, _ | ⟨a4, u5⟩⟩⟩⟩
          · simp [dottiff, List.isPrefixOf, charTdot] at hpre
          · simp [dottiff, List.isPrefixOf, charIdot] at hpre
          · simp [dottiff, List.isPrefixOf, charFdot] at hpre
          · simp [dottiff, List.isPrefixOf, charFdot] at hpre
          · simp only [List.length_cons] at hlt; omega
        have hred : replaceAll dottiff dotpdf (c :: (u2 ++ dottiff))
            = dotpdf ++ replaceAll dottiff dotpdf (u2.drop 4 ++ dottiff) := by
          have h1 : replaceAll dottiff dotpdf (c :: (u2 ++ dottiff))
              = dotpdf ++ replAux dottiff dotpdf 4 (u2 ++ dottiff) := by
            show (if dottiff.isPrefixOf (c :: (u2 ++ dottiff)) = true
                then dotpdf ++ replAux dottiff dotpdf 4 (u2 ++ dottiff)
                else c :: replAux dottiff dotpdf 0 (u2 ++ dottiff))
              = dotpdf ++ replAux dottiff dotpdf 4 (u2 ++ dottiff)
            rw [if_pos hpre]
          rw [h1, replAux_shift]
          congr 2
          rw [List.drop_append_of_le_length hlen]
        rw [hred]
        apply isSuffixOf_append_of
        apply ih (u2.drop 4)
        simp only [List.length_cons] at hu
        simp only [List.length_drop]
        omega
      · have hred : replaceAll dottiff dotpdf (c :: (u2 ++ dottiff))
            = c :: replaceAll dottiff dotpdf (u2 ++ dottiff) := by
          show (if dottiff.isPrefixOf (c :: (u2 ++ dottiff)) = true
              then dotpdf ++ replAux dottiff dotpdf 4 (u2 ++ dottiff)
              else c :: replAux dottiff dotpdf 0 (u2 ++ dottiff))
            = c :: replaceAll dottiff dotpdf (u2 ++ dottiff)
          rw [if_neg hpre]
          rfl
        rw [hred]
        apply isSuffixOf_cons_of
        apply ih u2
        simp only [List.length_cons] at hu
        omega

theorem repl_end_tiff (u : List Char) :
    dotpdf.isSuffixOf (replaceAll dottiff dotpdf (u ++ dottiff)) = true :=
  repl_end_tiff_aux u.length u le_rfl

/-- Replacing every `".tiff"` in a string that ends with `".tif"` leaves the
trailing `".tif"` intact: no `".tiff"` occurrence can intersect it. -/
theorem repl_keep_tif_aux :
    ∀ (n : Nat) (u : List Char), u.length ≤ n →
      dottif.isSuffixOf (replaceAll dottiff dotpdf (u ++ dottif)) = true := by
  intro n
  induction n with
  | zero =>
    intro u hu
    have hnil : u = [] := List.length_eq_zero.mp (Nat.le_zero.mp hu)
    subst hnil; decide
  | succ n ih =>
    intro u hu
    match u with
    | [] => decide
    | c :: u2 =>
      rw [List.cons_append]
      by_cases hpre : dottiff.isPrefixOf (c :: (u2 ++ dottif)) = true
      · have hlen : 4 ≤ u2.length := by
          by_contra hlt
          push_neg at hlt
          rcases u2 with _ | ⟨a1, _ | ⟨a2, _ | ⟨a3, _ | ⟨a4, u5⟩⟩⟩⟩
          · simp [dottiff, dottif, List.isPrefixOf, charTdot] at hpre
          · simp [dottiff, dottif, List.isPrefixOf, charIdot] at hpre
          · simp [dottiff, dottif, List.isPrefixOf, charFdot] at hpre
          · simp [dottiff, dottif, List.isPrefixOf, charFdot] at hpre
          · simp only [List.length_cons] at hlt; omega
        have hred : replaceAll dottiff dotpdf (c :: (u2 ++ dottif))
            = dotpdf ++ replaceAll dottiff dotpdf (u2.drop 4 ++ dottif) := by
          have h1 : replaceAll dottiff dotpdf (c :: (u2 ++ dottif))
              = dotpdf ++ replAux dottiff dotpdf 4 (u2 ++ dottif) := by
            show (if dottiff.isPrefixOf (c :: (u2 ++ dottif)) = true
                then dotpdf ++ replAux dottiff dotpdf 4 (u2 ++ dottif)
                else c :: replAux dottiff dotpdf 0 (u2 ++ dottif))
              = dotpdf ++ replAux dottiff dotpdf 4 (u2 ++ dottif)
            rw [if_pos hpre]
          rw [h1, replAux_shift]
          congr 2
          rw [List.drop_append_of_le_length hlen]
        rw [hred]
        apply isSuffixOf_append_of
        apply ih (u2.drop 4)
        simp only [List.length_cons] at hu
        simp only [List.length_drop]
        omega
      · have hred : replaceAll dottiff dotpdf (c :: (u2 ++ dottif))
            = c :: replaceAll dottiff dotpdf (u2 ++ dottif) := by
          show (if dottiff.isPrefixOf (c :: (u2 ++ dottif)) = true
              then dotpdf ++ replAux dottiff dotpdf 4 (u2 ++ dottif)
              else c :: replAux dottiff dotpdf 0 (u2 ++ dottif))
            = c :: replaceAll dottiff dotpdf (u2 ++ dottif)
          rw [if_neg hpre]
          rfl
        rw [hred]
        apply isSuffixOf_cons_of
        apply ih u2
        simp only [List.length_cons] at hu
        omega

theorem repl_keep_tif (u : List Char) :
    dottif.isSuffixOf (replaceAll dottiff dotpdf (u ++ dottif)) = true :=
  repl_keep_tif_aux u.length u le_rfl

/-- Replacing every `".tif"` in a string that ends with `".tif"` yields a
string ending with `".pdf"`. -/
theorem repl_end_tif_aux :
    ∀ (n : Nat) (u : List Char), u.length ≤ n →
      dotpdf.isSuffixOf (replaceAll dottif dotpdf (u ++ dottif)) = true := by
  intro n
  induction n with
  | zero =>
    intro u hu
    have hnil : u = [] := List.length_eq_zero.mp (Nat.le_zero.mp hu)
    subst hnil; decide
  | succ n ih =>
    intro u hu
    match u with
    | [] => decide
    | c :: u2 =>
      rw [List.cons_append]
      by_cases hpre : dottif.isPrefixOf (c :: (u2 ++ dottif)) = true
      · have hlen : 3 ≤ u2.length := by
          by_contra hlt
          push_neg at hlt
          rcases u2 with _ | ⟨a1, _ | ⟨a2, _ | ⟨a3, u4⟩⟩⟩
          · simp [dottif, List.isPrefixOf, charTdot] at hpre
          · simp [dottif, List.isPrefixOf, charIdot] at hpre
          · simp [dottif, List.isPrefixOf, charFdot] at hpre
          · simp only [List.length_cons] at hlt; omega
        have hred : replaceAll dottif dotpdf (c :: (u2 ++ dottif))
            = dotpdf ++ replaceAll dottif dotpdf (u2.drop 3 ++ dottif) := by
          have h1 : replaceAll dottif dotpdf (c :: (u2 ++ dottif))
              = dotpdf ++ replAux dottif dotpdf 3 (u2 ++ dottif) := by
            show (if dottif.isPrefixOf (c :: (u2 ++ dottif)) = true
                then dotpdf ++ replAux dottif dotpdf 3 (u2 ++ dottif)
                else c :: replAux dottif dotpdf 0 (u2 ++ dottif))
              = dotpdf ++ replAux dottif dotpdf 3 (u2 ++ dottif)
            rw [if_pos hpre]
          rw [h1, replAux_shift]
          congr 2
          rw [List.drop_append_of_le_length hlen]
        rw [hred]
        apply isSuffixOf_append_of
        apply ih (u2.drop 3)
        simp only [List.length_cons] at hu
        simp only [List.length_drop]
        omega
      · have hred : replaceAll dottif dotpdf (c :: (u2 ++ dottif))
            = c :: replaceAll dottif dotpdf (u2 ++ dottif) := by
          show (if dottif.isPrefixOf (c :: (u2 ++ dottif)) = true
              then dotpdf ++ replAux dottif dotpdf 3 (u2 ++ dottif)
              else c :: replAux dottif dotpdf 0 (u2 ++ dottif))
            = c :: replaceAll dottif dotpdf (u2 ++ dottif)
          rw [if_neg hpre]
          rfl
        rw [hred]
        apply isSuffixOf_cons_of
        apply ih u2
        simp only [List.length_cons] at hu
        omega

theorem repl_end_tif (u : List Char) :
    dotpdf.isSuffixOf (replaceAll dottif dotpdf (u ++ dottif)) = true :=
  repl_end_tif_aux u.length u le_rfl

theorem occursIn_of_suffix (pat : List Char) :
    ∀ s : List Char, pat.isSuffixOf s = true → occursIn pat s = true := by
  intro s
  induction s with
  | nil =>
    intro h
    rw [List.isSuffixOf_iff_suffix] at h
    have hnil : pat = [] := List.suffix_nil.mp h
    subst hnil; decide
  | cons c cs ih =>
    intro h
    rw [List.isSuffixOf_iff_suffix] at h
    rcases List.suffix_cons_iff.mp h with h | h
    · rw [h]
      simp [occursIn, List.isPrefixOf_iff_prefix]
    · simp [occursIn, ih (List.isSuffixOf_iff_suffix.mpr h)]

theorem hasTiffExt_joinP (d f : String) (h : hasTiffExt f = true) :
    hasTiffExt (joinP d f) = true := by
  have hdata : (joinP d f).data = (d ++ "/").data ++ f.data := by
    simp [joinP]
  unfold hasTiffExt at h ⊢
  rw [hdata]
  cases h5 : dottiff.isSuffixOf f.data with
  | true => rw [isSuffixOf_append_of _ _ _ h5]; simp
  | false =>
    rw [h5] at h
    simp only [Bool.false_or] at h
    rw [isSuffixOf_append_of _ _ _ h]
    simp

/-- The central save lemma: the path derived from a `.tif`/`.tiff` source
always ends in `.pdf` or `.tif`, so `Image.save` always has a registered
format for it. -/
theorem saveOk_pdfPathOf (p : String) (h : hasTiffExt p = true) :
    saveOk (pdfPathOf p) = true := by
  unfold hasTiffExt at h
  cases h5 : dottiff.isSuffixOf p.data with
  | true =>
    obtain ⟨u, hu⟩ := List.isSuffixOf_iff_suffix.mp h5
    have hpath : pdfPathOf p = ⟨replaceAll dottiff dotpdf p.data⟩ := by
      unfold pdfPathOf
      rw [if_pos (occursIn_of_suffix dottiff p.data h5)]
    rw [hpath]
    show (dotpdf.isSuffixOf (replaceAll dottiff dotpdf p.data)
      || dottiff.isSuffixOf (replaceAll dottiff dotpdf p.data)
      || dottif.isSuffixOf (replaceAll dottiff dotpdf p.data)) = true
    rw [← hu, repl_end_tiff u]
    simp
  | false =>
    rw [h5] at h
    simp only [Bool.false_or] at h
    obtain ⟨u, hu⟩ := List.isSuffixOf_iff_suffix.mp h
    cases hocc : occursIn dottiff p.data with
    | true =>
      have hpath : pdfPathOf p = ⟨replaceAll dottiff dotpdf p.data⟩ := by
        unfold pdfPathOf
        rw [if_pos hocc]
      rw [hpath]
      show (dotpdf.isSuffixOf (replaceAll dottiff dotpdf p.data)
        || dottiff.isSuffixOf (replaceAll dottiff dotpdf p.data)
        || dottif.isSuffixOf (replaceAll dottiff dotpdf p.data)) = true
      rw [← hu, repl_keep_tif u]
      simp
    | false =>
      have hpath : pdfPathOf p = ⟨replaceAll dottif dotpdf p.data⟩ := by
        unfold pdfPathOf
        rw [if_neg (by simp [hocc])]
      rw [hpath]
      show (dotpdf.isSuffixOf (replaceAll dottif dotpdf p.data)
        || dottiff.isSuffixOf (replaceAll dottif dotpdf p.data)
        || dottif.isSuffixOf (replaceAll dottif dotpdf p.data)) = true
      rw [← hu, repl_end_tif u]
      simp

/-! ## Bounded-read lemmas for `check_hex` -/

theorem readChunksFuel_sum (k : Nat) :
    ∀ l : List Byte,
      ((readChunksFuel k l).map List.length).sum = min l.length (32 * k) := by
  induction k with
  | zero => intro l; simp [readChunksFuel]
  | succ k ih =>
    intro l
    cases l with
    | nil => simp [readChunksFuel]
    | cons c cs =>
      simp only [readChunksFuel, List.map_cons, List.sum_cons, ih,
        List.length_take, List.length_drop, List.length_cons]
      omega

theorem readChunksFuel_take (k : Nat) :
    ∀ l : List Byte, readChunksFuel k (l.take (32 * k)) = readChunksFuel k l := by
  induction k with
  | zero => intro l; simp [readChunksFuel]
  | succ k ih =>
    intro l
    cases l with
    | nil => simp [readChunksFuel]
    | cons c cs =>
      have h32 : 32 * (k + 1) = (32 * k + 31) + 1 := by ring
      rw [h32, List.take_succ_cons]
      show (c :: List.take (32 * k + 31) cs).take 32 ::
          readChunksFuel k ((c :: List.take (32 * k + 31) cs).drop 32)
        = (c :: cs).take 32 :: readChunksFuel k ((c :: cs).drop 32)
      congr 1
      · show c :: (List.take (32 * k + 31) cs).take 31 = c :: cs.take 31
        rw [List.take_take, min_eq_left (by omega)]
      · show readChunksFuel k ((List.take (32 * k + 31) cs).drop 31)
          = readChunksFuel k (cs.drop 31)
        rw [List.drop_take]
        have h31 : 32 * k + 31 - 31 = 32 * k := by omega
        rw [h31, ih]

/-! ## Characterization of the conversion loop over the initial state -/

theorem convertLoop_spec (rgb : Nat → Nat) (le : Bool) (pf : List String) (fs0 : Fs) :
    ∀ (listing : List String) (fs : Fs),
      (∀ f ∈ listing, hasTiffExt f = true → (fs0 (joinP inDir f)).isSome = true) →
      (∀ f ∈ listing, staticCond le pf fs0 f = true →
        decodedAt fs0 (joinP inDir f) ≠ none ∧
        decodedAt fs0 (joinP inDir f) ≠ some []) →
      (∀ f ∈ listing, hasTiffExt f = true →
        fs (joinP inDir f) = fs0 (joinP inDir f)) →
      (∀ f ∈ listing, ∀ g ∈ listing, hasTiffExt f = true →
        joinP inDir f ≠ midOf g) →
      ∃ fsN, convertLoop rgb le pf listing fs =
          .ok (fsN, (listing.filter (staticCond le pf fs0)).map midOf)
        ∧ (∀ q, ¬ q ∈ (listing.filter (staticCond le pf fs0)).map midOf →
            fsN q = fs q)
        ∧ (((listing.filter (staticCond le pf fs0)).map midOf).Nodup →
            ∀ f ∈ listing, staticCond le pf fs0 f = true →
              fsN (midOf f) = some (savedData (midOf f) (pagesOf rgb fs0 f))) := by
  intro listing
  induction listing with
  | nil =>
    intro fs _ _ _ _
    exact ⟨fs, rfl, fun q _ => rfl, fun _ f hf => absurd hf (List.not_mem_nil f)⟩
  | cons f rest ih =>
    intro fs Hp Hd Ha Hn
    have HpR := fun g hg => Hp g (List.mem_cons_of_mem f hg)
    have HdR := fun g hg => Hd g (List.mem_cons_of_mem f hg)
    have HnR := fun g hg g2 hg2 => Hn g (List.mem_cons_of_mem f hg) g2 (List.mem_cons_of_mem f hg2)
    cases hext : hasTiffExt f with
    | false =>
      have hcond : staticCond le pf fs0 f = false := by simp [staticCond, hext]
      have hfil : (f :: rest).filter (staticCond le pf fs0)
          = rest.filter (staticCond le pf fs0) :=
        List.filter_cons_of_neg (by simp [hcond])
      have HaR := fun g hg => Ha g (List.mem_cons_of_mem f hg)
      obtain ⟨fsN, h1, h2, h3⟩ := ih fs HpR HdR HaR HnR
      refine ⟨fsN, ?_, ?_, ?_⟩
      · rw [hfil]
        simp only [convertLoop, hext, Bool.false_eq_true, if_false]
        exact h1
      · rw [hfil]; exact h2
      · rw [hfil]
        intro hnd g hg hcg
        rcases List.mem_cons.mp hg with hg | hg
        · subst hg; rw [hcg] at hcond; exact absurd hcond (by simp)
        · exact h3 hnd g hg hcg
    | true =>
      have hps := Hp f (List.mem_cons_self f rest) hext
      cases hfs0 : fs0 (joinP inDir f) with
      | none => rw [hfs0] at hps; exact absurd hps (by simp)
      | some d =>
        have hafs : fs (joinP inDir f) = some d :=
          (Ha f (List.mem_cons_self f rest) hext).trans hfs0
        have hch : check_hex fs le (joinP inDir f)
            = .ok (check_hex_content le d.bytes) := by
          simp [check_hex, hafs]
        have hsig : sigAt le fs0 (joinP inDir f) = check_hex_content le d.bytes := by
          simp [sigAt, hfs0]
        by_cases hc : check_hex_content le d.bytes = true ∧ f ∈ pf
        · have hcond : staticCond le pf fs0 f = true := by
            simp [staticCond, hext, hsig, hc.1, hc.2]
          have hmem : pf.contains f = true := by simp [hc.2]
          obtain ⟨hd1, hd2⟩ := Hd f (List.mem_cons_self f rest) hcond
          cases hdec : d.frames with
          | none =>
            rw [show decodedAt fs0 (joinP inDir f) = d.frames by
              simp [decodedAt, hfs0], hdec] at hd1
            exact absurd rfl hd1
          | some ps =>
            have hdecAt : decodedAt fs0 (joinP inDir f) = some ps := by
              simp [decodedAt, hfs0, hdec]
            have hne : ps ≠ [] := by
              intro hnil
              rw [hdecAt, hnil] at hd2
              exact hd2 rfl
            have hsv : saveOk (pdfPathOf (joinP inDir f)) = true :=
              saveOk_pdfPathOf _ (hasTiffExt_joinP inDir f hext)
            have ht := tiff_to_pdf_eq rgb fs (joinP inDir f) d ps hafs hdec hne hsv
            have Ha2 : ∀ g ∈ rest, hasTiffExt g = true →
                (fs.write (pdfPathOf (joinP inDir f))
                    (savedData (pdfPathOf (joinP inDir f)) (ps.map rgb)))
                  (joinP inDir g) = fs0 (joinP inDir g) := by
              intro g hg hgext
              have hne2 : joinP inDir g ≠ pdfPathOf (joinP inDir f) :=
                Hn g (List.mem_cons_of_mem f hg) f (List.mem_cons_self f rest) hgext
              rw [Fs.write_other _ _ _ _ hne2]
              exact Ha g (List.mem_cons_of_mem f hg) hgext
            obtain ⟨fsN, h1, h2, h3⟩ :=
              ih (fs.write (pdfPathOf (joinP inDir f))
                  (savedData (pdfPathOf (joinP inDir f)) (ps.map rgb)))
                HpR HdR Ha2 HnR
            have hfil : (f :: rest).filter (staticCond le pf fs0)
                = f :: rest.filter (staticCond le pf fs0) :=
              List.filter_cons_of_pos hcond
            have hpages : pagesOf rgb fs0 f = ps.map rgb := by
              simp [pagesOf, hdecAt]
            refine ⟨fsN, ?_, ?_, ?_⟩
            · rw [hfil, List.map_cons]
              simp only [convertLoop, hext, if_true, hch, hc.1, hmem,
                Bool.and_self, ht, h1, midOf]
            · rw [hfil, List.map_cons]
              intro q hq
              simp only [List.mem_cons, not_or] at hq
              have hq1 : q ≠ pdfPathOf (joinP inDir f) := hq.1
              rw [h2 q hq.2, Fs.write_other _ _ _ _ hq1]
            · rw [hfil, List.map_cons]
              intro hnd g hg hcg
              rw [List.nodup_cons] at hnd
              rcases List.mem_cons.mp hg with hg | hg
              · subst hg
                rw [h2 (midOf g) hnd.1, hpages]
                exact Fs.write_same _ _ _
              · exact h3 hnd.2 g hg hcg
        · have hstat : staticCond le pf fs0 f
              = (check_hex_content le d.bytes && pf.contains f) := by
            simp [staticCond, hext, hsig]
          have hbc : (check_hex_content le d.bytes && pf.contains f) = false := by
            by_cases hb : check_hex_content le d.bytes = true
            · have hm : ¬ f ∈ pf := fun hm => hc ⟨hb, hm⟩
              simp [hb, hm]
            · have hb2 : check_hex_content le d.bytes = false := by
                revert hb; cases check_hex_content le d.bytes <;> simp
              simp [hb2]
          have hcond : staticCond le pf fs0 f = false := hstat.trans hbc
          have hfil : (f :: rest).filter (staticCond le pf fs0)
              = rest.filter (staticCond le pf fs0) :=
            List.filter_cons_of_neg (by simp [hcond])
          have HaR := fun g hg => Ha g (List.mem_cons_of_mem f hg)
          obtain ⟨fsN, h1, h2, h3⟩ := ih fs HpR HdR HaR HnR
          refine ⟨fsN, ?_, ?_, ?_⟩
          · rw [hfil]
            simp only [convertLoop, hext, if_true, hch, hbc,
              Bool.false_eq_true, if_false]
            exact h1
          · rw [hfil]; exact h2
          · rw [hfil]
            intro hnd g hg hcg
            rcases List.mem_cons.mp hg with hg | hg
            · subst hg; rw [hcg] at hcond; exact absurd hcond (by simp)
            · exact h3 hnd g hg hcg

theorem mergePages_of_content (rgb : Nat → Nat) (fs0 fsN : Fs) :
    ∀ fl : List String,
      (∀ f ∈ fl, fsN (midOf f) = some ⟨pdfMagic, none, some (pagesOf rgb fs0 f)⟩) →
      mergePages fsN (fl.map midOf) = .ok (fl.map (pagesOf rgb fs0)).flatten := by
  intro fl
  induction fl with
  | nil => intro _; rfl
  | cons f fl ih =>
    intro hc
    have hf := hc f (List.mem_cons_self f fl)
    simp only [List.map_cons, mergePages, hf, List.flatten_cons]
    rw [ih (fun g hg => hc g (List.mem_cons_of_mem f hg))]
    rfl

/-! ## Fixtures for witnesses and counterexamples -/

def wfsEmpty : Fs := fun _ => none

def wfsE : Fs := fun p =>
  if p = "pdf/input/e.tif" then some ⟨[], none, none⟩ else none

def wfsNotes : Fs := fun p =>
  if p = "notes.txt" then some ⟨[], some [3], none⟩ else none

def wfsT : Fs := fun p =>
  if p = "a.tifb.pdf" then some ⟨[], some [3], none⟩ else none

/-! ## Claim C1 -/

/-- C1: `check_hex` returns true iff the file's first 4 bytes are exactly the
host-byte-order-appropriate TIFF signature (`49 49 2A 00` little endian,
`4D 4D 00 2A` big endian); any other leading bytes — including a file shorter
than 4 bytes, in particular a zero-length file — yield false, and on every
readable file the validator returns a boolean without raising. -/
theorem tiff2pdf_C1_signature :
    (∀ (le : Bool) (bs : List Byte),
        check_hex_content le bs = true ↔ bs.take 4 = sig_bytes le) ∧
    (∀ (fs : Fs) (le : Bool) (p : String) (d : FileData), fs p = some d →
        check_hex fs le p = .ok (check_hex_content le d.bytes)) :=
  ⟨check_hex_content_iff, fun fs le p d h => by simp [check_hex, h]⟩

theorem tiff2pdf_C1_signature_witness :
    check_hex wfsE true "pdf/input/e.tif" = Except.ok false := by
  have h := tiff2pdf_C1_signature.2 wfsE true "pdf/input/e.tif" ⟨[], none, none⟩ (by decide)
  rw [h]; rfl

/-! ## Claim C6 -/

/-- C6 counterexample: on a path that cannot be read (here: an empty
filesystem), `check_hex` raises the open failure instead of returning
false. -/
theorem tiff2pdf_C6_counterexample :
    check_hex wfsEmpty true "ghost.tif" = Except.error (Err.openFail "ghost.tif") := rfl

/-- C6 (amended): `check_hex` propagates the open failure to its caller when
the file cannot be read (the `open` call is not guarded); on every readable
file it returns a boolean and never raises. -/
theorem tiff2pdf_C6_amended (fs : Fs) (le : Bool) (p : String) :
    (fs p = none → check_hex fs le p = .error (Err.openFail p)) ∧
    (∀ d, fs p = some d → check_hex fs le p = .ok (check_hex_content le d.bytes)) := by
  constructor
  · intro h; simp [check_hex, h]
  · intro d h; simp [check_hex, h]

theorem tiff2pdf_C6_amended_witness :
    check_hex wfsEmpty false "gone.tif" = Except.error (Err.openFail "gone.tif") :=
  (tiff2pdf_C6_amended wfsEmpty false "gone.tif").1 rfl

/-! ## Claim C7 -/

/-- C7: when the source path does not exist at call time, `tiff_to_pdf`
raises an error identifying the path, and does so before the file is opened
for decoding (the result does not depend on any decoded content). -/
theorem tiff2pdf_C7_notfound (rgb : Nat → Nat) (fs : Fs) (p : String)
    (h : fs p = none) : tiff_to_pdf rgb fs p = .error (Err.notFound p) := by
  simp [tiff_to_pdf, h]

theorem tiff2pdf_C7_notfound_witness :
    tiff_to_pdf id wfsEmpty "pdf/input/x.tif"
      = Except.error (Err.notFound "pdf/input/x.tif") :=
  tiff2pdf_C7_notfound id wfsEmpty "pdf/input/x.tif" rfl

/-! ## Claim C8 -/

/-- The number of bytes `check_hex` reads from a file. -/
def bytesReadBy (bs : List Byte) : Nat :=
  ((readChunksFuel 11 bs).map List.length).sum

/-- C8: the validator reads at most 11 chunks of 32 bytes — `min length 352`
bytes, hence at most 352 — and its verdict depends only on those bytes. -/
theorem tiff2pdf_C8_bounded_read (le : Bool) (bs : List Byte) :
    bytesReadBy bs = min bs.length 352 ∧ bytesReadBy bs ≤ 352 ∧
    check_hex_content le bs = check_hex_content le (bs.take 352) := by
  have hsum := readChunksFuel_sum 11 bs
  have h352 : 32 * 11 = 352 := by norm_num
  rw [h352] at hsum
  refine ⟨hsum, le_of_eq hsum |>.trans (min_le_right _ _), ?_⟩
  have htake := readChunksFuel_take 11 bs
  rw [h352] at htake
  unfold check_hex_content hex_dump
  rw [htake]

/-! ## Claim C3 -/

/-- C3 counterexample: `"a.tifb.pdf"` ends in neither `.tiff` nor `.tif`, yet
the converter does not fail with any invalid-path error: it derives the path
`"a.pdfb.pdf"` by replacing the non-trailing `.tif` occurrence, saves there
(a registered `.pdf` target) and returns it. -/
theorem tiff2pdf_C3_counterexample :
    hasTiffExt "a.tifb.pdf" = false ∧
    (tiff_to_pdf id wfsT "a.tifb.pdf").map Prod.snd = Except.ok "a.pdfb.pdf" := by
  constructor
  · decide
  · decide

/-- C3 (amended): the `pdf_path` derivation is total and no invalid-path
error exists: `pdf_path` replaces every occurrence of the substring ".tiff"
(when ".tiff" occurs anywhere in the path) or else every occurrence of
".tif" with ".pdf", and a path with no ".tif" occurrence is left unchanged.
Whether the conversion then succeeds is decided by the save of the derived
target, not by the source suffix: a readable, decodable source whose derived
path has a registered extension converts and returns that path, while an
unregistered derived extension (such as `.txt`) makes the save raise
`ValueError` — still not an invalid-path error at derivation. -/
theorem tiff2pdf_C3_amended (rgb : Nat → Nat) (fs : Fs) (p : String) :
    (∀ d ps, fs p = some d → d.frames = some ps → ps ≠ [] →
      saveOk (pdfPathOf p) = true →
      (tiff_to_pdf rgb fs p).map Prod.snd = Except.ok (pdfPathOf p)) ∧
    (occursIn dottif p.data = false → pdfPathOf p = p) ∧
    (tiff_to_pdf id wfsNotes "notes.txt").map Prod.snd
      = Except.error (Err.saveFail "notes.txt") := by
  refine ⟨?_, pdfPathOf_eq_self p, by decide⟩
  intro d ps h1 h2 h3 h4
  rw [tiff_to_pdf_eq rgb fs p d ps h1 h2 h3 h4]
  rfl

theorem tiff2pdf_C3_amended_witness :
    (tiff_to_pdf id wfsT "a.tifb.pdf").map Prod.snd
        = Except.ok (pdfPathOf "a.tifb.pdf") ∧
    pdfPathOf "notes.txt" = "notes.txt" :=
  ⟨(tiff2pdf_C3_amended id wfsT "a.tifb.pdf").1 ⟨[], some [3], none⟩ [3]
      (by decide) rfl (by decide) (by decide),
   (tiff2pdf_C3_amended id wfsNotes "notes.txt").2.1 (by decide)⟩

/-! ## Claim C4 -/

/-- C4 (amended): provided no derived intermediate PDF path coincides with the
input-directory path of a listed `.tif`/`.tiff` entry, a file is converted
exactly when its extension is `.tif` or `.tiff`, its signature check over the
initial directory contents succeeds, and its name is in `pat_files`; the
converted list preserves directory-listing order.  (Without that proviso an
intermediate TIFF written earlier in the pass can overwrite a later
candidate, whose signature check then sees the overwritten content instead
of the original file.) -/
theorem tiff2pdf_C4_filter (rgb : Nat → Nat) (le : Bool) (pf : List String)
    (fs0 : Fs) (listing : List String)
    (Hp : ∀ f ∈ listing, hasTiffExt f = true → (fs0 (joinP inDir f)).isSome = true)
    (Hd : ∀ f ∈ listing, staticCond le pf fs0 f = true →
      decodedAt fs0 (joinP inDir f) ≠ none ∧ decodedAt fs0 (joinP inDir f) ≠ some [])
    (Hn : ∀ f ∈ listing, ∀ g ∈ listing, hasTiffExt f = true →
      joinP inDir f ≠ midOf g) :
    (convertLoop rgb le pf listing fs0).map Prod.snd
      = Except.ok ((listing.filter (staticCond le pf fs0)).map midOf) := by
  obtain ⟨fsN, h1, _, _⟩ :=
    convertLoop_spec rgb le pf fs0 listing fs0 Hp Hd (fun f hf hext => rfl) Hn
  rw [h1]; rfl

def wfsB : Fs := fun p =>
  if p = "pdf/input/b.tiffa.tif" then some ⟨tiffLE, some [1], none⟩
  else if p = "pdf/input/b.pdfa.tif" then some ⟨[], none, none⟩
  else none
def wpfB : List String := ["prog", "job", "b.tiffa.tif", "b.pdfa.tif"]
def wlsB : List String := ["b.tiffa.tif", "b.pdfa.tif"]

/-- C4 counterexample: both listed files have a `.tif` extension and are in
the manifest, but `b.pdfa.tif` is a junk file the validator rejects on the
initial directory contents, so the claim says it is not converted.  The run
converts it anyway: converting `b.tiffa.tif` derives the `.tif`-suffixed
intermediate path `pdf/input/b.pdfa.tif` and PIL writes a little-endian TIFF
there, so when the loop reaches `b.pdfa.tif` its signature check passes on
the little-endian host and it is converted — two middle files are produced
where the claim predicts one. -/
theorem tiff2pdf_C4_counterexample :
    ((wlsB.filter (staticCond true wpfB wfsB)).map midOf).length = 1 ∧
    (convertLoop id true wpfB wlsB wfsB).map Prod.snd
      = Except.ok ["pdf/input/b.pdfa.tif", "pdf/input/b.pdfa.pdf"] ∧
    (convertLoop id true wpfB wlsB wfsB).map Prod.snd
      ≠ Except.ok ((wlsB.filter (staticCond true wpfB wfsB)).map midOf) :=
  ⟨by decide, by decide, by decide⟩

def wfsF : Fs := fun p =>
  if p = "pdf/input/x.tif" then some ⟨tiffLE, some [1], none⟩
  else if p = "pdf/input/y.tif" then some ⟨[0, 0, 0, 0], some [2], none⟩
  else if p = "pdf/input/z.txt" then some ⟨tiffLE, some [3], none⟩
  else none
def wpfF : List String := ["prog", "job", "x.tif", "z.txt"]
def wlsF : List String := ["x.tif", "y.tif", "z.txt"]

theorem tiff2pdf_C4_filter_witness :
    (convertLoop id true wpfF wlsF wfsF).map Prod.snd
      = Except.ok ["pdf/input/x.pdf"] := by
  have h := tiff2pdf_C4_filter id true wpfF wfsF wlsF
    (by decide) (by decide) (by decide)
  rw [h]; decide

/-! ## Claim C9 -/

/-- C9 (amended): every converted source yields exactly one intermediate path
(the middle-file list has one entry per filter survivor), but the mapping from
sources to intermediate paths is not injective: the distinct names `x.tif`
and `x.tiff` derive the same intermediate path. -/
theorem tiff2pdf_C9_one_per_source (rgb : Nat → Nat) (le : Bool)
    (pf : List String) (fs0 : Fs) (listing : List String)
    (Hp : ∀ f ∈ listing, hasTiffExt f = true → (fs0 (joinP inDir f)).isSome = true)
    (Hd : ∀ f ∈ listing, staticCond le pf fs0 f = true →
      decodedAt fs0 (joinP inDir f) ≠ none ∧ decodedAt fs0 (joinP inDir f) ≠ some [])
    (Hn : ∀ f ∈ listing, ∀ g ∈ listing, hasTiffExt f = true →
      joinP inDir f ≠ midOf g) :
    (convertLoop rgb le pf listing fs0).map (fun r => r.2.length)
      = Except.ok (listing.filter (staticCond le pf fs0)).length ∧
    midOf "x.tif" = midOf "x.tiff" := by
  constructor
  · obtain ⟨fsN, h1, _, _⟩ :=
      convertLoop_spec rgb le pf fs0 listing fs0 Hp Hd (fun f hf hext => rfl) Hn
    rw [h1]
    simp only [Except.map, List.length_map]
  · decide

def wfsD : Fs := fun p =>
  if p = "pdf/input/x.tif" then some ⟨tiffLE, some [1], none⟩
  else if p = "pdf/input/x.tiff" then some ⟨tiffLE, some [2], none⟩
  else none
def wpfD : List String := ["prog", "job", "x.tif", "x.tiff"]
def wlsD : List String := ["x.tif", "x.tiff"]

/-- C9 counterexample: in one batch the two distinct sources `x.tif` and
`x.tiff` both derive the intermediate path `pdf/input/x.pdf` — the
source-to-intermediate mapping is not injective and the path is reused. -/
theorem tiff2pdf_C9_counterexample :
    ("x.tif" : String) ≠ "x.tiff" ∧
    (convertLoop id true wpfD wlsD wfsD).map Prod.snd
      = Except.ok ["pdf/input/x.pdf", "pdf/input/x.pdf"] :=
  ⟨by decide, by decide⟩

theorem tiff2pdf_C9_one_per_source_witness :
    (convertLoop id true wpfF wlsF wfsF).map (fun r => r.2.length)
      = Except.ok 1 := by
  have h := (tiff2pdf_C9_one_per_source id true wpfF wfsF wlsF
    (by decide) (by decide) (by decide)).1
  rw [h]; decide

/-! ## Claim C5 -/

/-- C5 (amended): provided the derived intermediate paths do not collide with
listed source paths, are pairwise distinct, and each ends in `.pdf` (so PIL
writes genuine PDF documents — an intermediate path ending in `.tif` would be
written as a TIFF and crash `PdfFileMerger.append`), the merged page sequence
is exactly the concatenation, in directory-listing order, of each filtered
source's RGB-normalized frame sequence.  (When two filtered sources derive
the same intermediate path, the later conversion overwrites the earlier
pages before the merge reads them.) -/
theorem tiff2pdf_C5_merge_order (rgb : Nat → Nat) (le : Bool)
    (pf : List String) (fs0 : Fs) (listing : List String)
    (Hp : ∀ f ∈ listing, hasTiffExt f = true → (fs0 (joinP inDir f)).isSome = true)
    (Hd : ∀ f ∈ listing, staticCond le pf fs0 f = true →
      decodedAt fs0 (joinP inDir f) ≠ none ∧ decodedAt fs0 (joinP inDir f) ≠ some [])
    (Hn : ∀ f ∈ listing, ∀ g ∈ listing, hasTiffExt f = true →
      joinP inDir f ≠ midOf g)
    (Hnodup : ((listing.filter (staticCond le pf fs0)).map midOf).Nodup)
    (Hpdf : ∀ f ∈ listing, staticCond le pf fs0 f = true →
      dotpdf.isSuffixOf (midOf f).data = true) :
    ∃ fs1, convertLoop rgb le pf listing fs0
        = .ok (fs1, (listing.filter (staticCond le pf fs0)).map midOf)
      ∧ mergePages fs1 ((listing.filter (staticCond le pf fs0)).map midOf)
        = .ok ((listing.filter (staticCond le pf fs0)).map (pagesOf rgb fs0)).flatten := by
  obtain ⟨fsN, h1, h2, h3⟩ :=
    convertLoop_spec rgb le pf fs0 listing fs0 Hp Hd (fun f hf hext => rfl) Hn
  refine ⟨fsN, h1, ?_⟩
  apply mergePages_of_content
  intro f hf
  have hm := List.mem_filter.mp hf
  have hc := h3 Hnodup f hm.1 hm.2
  rw [hc]
  unfold savedData
  rw [if_pos (Hpdf f hm.1 hm.2)]

/-- C5 counterexample: with the colliding batch `x.tif` (pages `[1]`) and
`x.tiff` (pages `[2]`), the claim predicts merged pages `[1, 2]`, but the run
merges `[2, 2]`: both middle-file entries point at the single overwritten
`pdf/input/x.pdf`. -/
theorem tiff2pdf_C5_counterexample :
    ((wlsD.filter (staticCond true wpfD wfsD)).map (pagesOf id wfsD)).flatten
        = [1, 2] ∧
    (match convertLoop id true wpfD wlsD wfsD with
      | .ok (fs1, mids) => mergePages fs1 mids
      | .error e => .error e) = Except.ok [2, 2] :=
  ⟨by decide, by decide⟩

def wfsM : Fs := fun p =>
  if p = "pdf/input/a.tif" then some ⟨tiffLE, some [1, 2], none⟩
  else if p = "pdf/input/b.tif" then some ⟨tiffLE, some [3], none⟩
  else none
def wpfM : List String := ["prog", "job", "a.tif", "b.tif"]
def wlsM : List String := ["a.tif", "b.tif"]

theorem tiff2pdf_C5_merge_order_witness :
    (match convertLoop id true wpfM wlsM wfsM with
      | .ok (fs1, mids) => mergePages fs1 mids
      | .error e => .error e) = Except.ok [1, 2, 3] := by
  obtain ⟨fs1, h1, h2⟩ := tiff2pdf_C5_merge_order id true wpfM wfsM wlsM
    (by decide) (by decide) (by decide) (by decide) (by decide)
  rw [h1]
  exact h2.trans (congrArg Except.ok (by decide))

/-! ## Claim C2 -/

/-- C2: whenever a batch run completes successfully, every middle-file path is
deleted, every input-directory file whose name is in `pat_files` is deleted
(converted or not), and every other path — apart from the written merged
output — is unchanged. -/
theorem tiff2pdf_C2_cleanup (rgb : Nat → Nat) (le : Bool) (ts : String)
    (argv allNames : List String) (fs0 : Fs) (r : RunResult)
    (h : runBatch rgb le ts argv allNames fs0 = .ok r) :
    (∀ p ∈ r.mids, r.fs p = none) ∧
    (∀ f ∈ allNames, argv.contains f = true → r.fs (joinP inDir f) = none) ∧
    (∀ q, ¬ q ∈ r.mids →
      (∀ f ∈ allNames, argv.contains f = true → q ≠ joinP inDir f) →
      q ≠ joinP outDir r.outName → r.fs q = fs0 q) := by
  cases argv with
  | nil => simp [runBatch] at h
  | cons a0 tl =>
    cases tl with
    | nil => simp [runBatch] at h
    | cons a1 tl2 =>
      simp only [runBatch] at h
      split at h
      · simp at h
      · rename_i fs1 mids hcv
        split at h
        · simp at h
        · rename_i pages hmg
          split at h
          · simp at h
          · rename_i fs3 hr1
            split at h
            · simp at h
            · rename_i fs4 hr2
              injection h with h
              subst h
              simp only [RunResult.fs, RunResult.mids, RunResult.outName]
              refine ⟨?_, ?_, ?_⟩
              · intro p hp
                rcases removeAll_none_or _ fs3 fs4 hr2 p with hc | hc
                · exact hc
                · rw [hc]
                  exact (removeAll_spec mids _ fs3 hr1).1 p hp
              · intro f hf hcf
                cases hfs3 : fs3 (joinP inDir f) with
                | none =>
                  rcases removeAll_none_or _ fs3 fs4 hr2 (joinP inDir f) with hc | hc
                  · exact hc
                  · rw [hc]; exact hfs3
                | some d =>
                  apply (removeAll_spec _ fs3 fs4 hr2).1
                  apply List.mem_map.mpr
                  refine ⟨f, ?_, rfl⟩
                  apply List.mem_filter.mpr
                  refine ⟨?_, hcf⟩
                  apply List.mem_filter.mpr
                  exact ⟨hf, by rw [hfs3]; rfl⟩
              · intro q hq hqf hqo
                have hnotL : ¬ q ∈ ((listdir allNames fs3).filter
                    (fun f => (a0 :: a1 :: tl2).contains f)).map (joinP inDir) := by
                  intro hmem
                  obtain ⟨f, hf1, hf2⟩ := List.mem_map.mp hmem
                  have hf3 := List.mem_filter.mp hf1
                  have hf4 := List.mem_filter.mp hf3.1
                  exact hqf f hf4.1 hf3.2 hf2.symm
                rw [(removeAll_spec _ fs3 fs4 hr2).2 q hnotL,
                    (removeAll_spec mids _ fs3 hr1).2 q hq,
                    Fs.write_other _ _ _ _ hqo,
                    convertLoop_frame rgb le _ _ fs0 fs1 mids hcv q hq]

def wfsA : Fs := fun p =>
  if p = "pdf/input/a.tif" then some ⟨tiffLE, some [5], none⟩ else none

def wresFs : Fs :=
  Fs.erase (Fs.erase (Fs.write
    (Fs.write wfsA "pdf/input/a.pdf" ⟨pdfMagic, none, some [5]⟩)
    "pdf/output/a_merged_T.pdf" ⟨pdfMagic, none, some [5]⟩)
    "pdf/input/a.pdf") "pdf/input/a.tif"

theorem tiff2pdf_C2_cleanup_witness :
    wresFs "pdf/input/a.pdf" = none ∧ wresFs "pdf/input/a.tif" = none ∧
    wresFs "pdf/input/keep.bin" = wfsA "pdf/input/keep.bin" := by
  obtain ⟨h1, h2, h3⟩ := tiff2pdf_C2_cleanup id true "T" ["prog", "A", "a.tif"]
    ["a.tif"] wfsA (wresFs, [5], "a_merged_T.pdf", ["pdf/input/a.pdf"]) (by rfl)
  exact ⟨h1 "pdf/input/a.pdf" (by decide),
         h2 "a.tif" (by decide) (by decide),
         h3 "pdf/input/keep.bin" (by decide) (by decide) (by decide)⟩

/-! ## Claim C10 -/

def wfsJ : Fs := fun p =>
  if p = "pdf/input/j.tif" then some ⟨tiffLE, some [7], none⟩ else none

/-- C10: the manifest membership test is membership in the full raw argument
vector: with argv `[program, job-id]` and no caller-supplied filenames at all
(`argv.drop 2 = []`), a valid TIFF whose name equals the job-id argument is
converted and merged (the merged output is its page list `[7]`) and then
deleted from the input directory. -/
theorem tiff2pdf_C10_argv_membership :
    (["prog", "j.tif"].drop 2 = ([] : List String)) ∧
    (runBatch id true "T" ["prog", "j.tif"] ["j.tif"] wfsJ).map
        (fun r => (r.merged, r.fs "pdf/input/j.tif"))
      = Except.ok ([7], none) :=
  ⟨rfl, by decide⟩
